import Mathlib

/-!
# Verification of the uProtocol URI addressing layer (`uuri.rs`)

Shallow embedding of the long-form URI parser (`UUri::from_str`), the
long-form serializer (`TryFrom<&UUri> for String`), and the resolver
(`UUri::build_resolved`) from `src/proto/uprotocol/uuri.rs`, together
with spec-modelled stand-ins for the external collaborators (the
resource-segment parser `UResource::from`, the `UriValidator`
predicates, and the micro-form codec).

Strings are modelled as `List Char`; machine integers (`u32`) as `Nat`
with explicit `< 2 ^ 32` bounds; fallible Rust functions return
`Except (List Char) _` carrying the error message.
-/

/-! ## String helpers -/

/-- The Unicode `White_Space` code points, as used by Rust's `str::trim`
and `char::is_whitespace`. -/
def isRustWs (c : Char) : Bool :=
  c.toNat ∈ [9, 10, 11, 12, 13, 32, 0x85, 0xA0, 0x1680,
    0x2000, 0x2001, 0x2002, 0x2003, 0x2004, 0x2005, 0x2006, 0x2007,
    0x2008, 0x2009, 0x200A, 0x2028, 0x2029, 0x202F, 0x205F, 0x3000]

/-- Embedding of Rust `str::trim`: drop leading and trailing whitespace. -/
def rustTrim (s : List Char) : List Char :=
  ((s.dropWhile isRustWs).reverse.dropWhile isRustWs).reverse

/-- Everything after the first occurrence of `c`, if `c` occurs: the
effect of Rust `s[s.find(c).unwrap() + 1 ..]`. -/
def afterFirst (c : Char) : List Char → Option (List Char)
  | [] => none
  | x :: xs => if x = c then some xs else afterFirst c xs

/-- Embedding of Rust `str::starts_with("//")`. -/
def startsSlashSlash : List Char → Bool
  | a :: b :: _ => a = '/' && b = '/'
  | _ => false

/-- Embedding of Rust `str::split('/')`: split into (possibly empty)
segments at every `'/'`. -/
def splitSlash : List Char → List (List Char)
  | [] => [[]]
  | c :: rest =>
    match splitSlash rest with
    | [] => [[]]
    | s :: ss => if c = '/' then [] :: s :: ss else (c :: s) :: ss

/-- Drop trailing empty segments, mirroring the `while let Some(last)`
loop of `UUri::pattern_split`. -/
def dropTrailingEmpty (l : List (List Char)) : List (List Char) :=
  (l.reverse.dropWhile (fun s => s.isEmpty)).reverse

/-- Embedding of `UUri::pattern_split(input, "/")`: split on `'/'`, then
remove trailing empty segments. -/
def patternSplit (input : List Char) : List (List Char) :=
  dropTrailingEmpty (splitSlash input)

/-- Embedding of the `Regex::new(r"/+$").replace_all(&output, "")` step
of the serializer: remove all trailing `'/'` characters. -/
def stripTrailingSlashes (s : List Char) : List Char :=
  (s.reverse.dropWhile (fun c => c = '/')).reverse

/-- Split at the first occurrence of `c`: the part before it, and
(`some`) the part after it when `c` occurs. -/
def splitAtFirst (c : Char) : List Char → List Char × Option (List Char)
  | [] => ([], none)
  | x :: xs =>
    if x = c then ([], some xs)
    else
      let r := splitAtFirst c xs
      (x :: r.1, r.2)

/-- The decimal digit character for `n < 10` (`'*'` out of range,
unreachable in use). -/
def digitChar : Nat → Char
  | 0 => '0' | 1 => '1' | 2 => '2' | 3 => '3' | 4 => '4'
  | 5 => '5' | 6 => '6' | 7 => '7' | 8 => '8' | 9 => '9'
  | _ => '*'

/-- Fuelled decimal printer: most-significant digit first. -/
def natDecGo : Nat → Nat → List Char
  | 0, _ => []
  | fuel + 1, m =>
    if m < 10 then [digitChar m]
    else natDecGo fuel (m / 10) ++ [digitChar (m % 10)]

/-- Decimal representation of a natural number, as Rust's `u32`
`Display` produces it. -/
def natDec (n : Nat) : List Char := natDecGo (n + 1) n

/-- Embedding of Rust `str::parse::<u32>()`: an optional leading `'+'`,
then one or more ASCII digits; fails on overflow past `2 ^ 32 - 1`. -/
def parseU32 (s : List Char) : Option Nat :=
  let digits := if s.head? = some '+' then s.tail else s
  if digits.isEmpty then none
  else if digits.all (fun c => '0' ≤ c && c ≤ '9') then
    let v := digits.foldl (fun a c => a * 10 + (c.toNat - 48)) 0
    if v < 2 ^ 32 then some v else none
  else none

/-! ## Data model

The protobuf-generated record types (`UAuthority`, `UEntity`,
`UResource`, `UUri`) are external to the shown core; the spec treats
them as plain structured data (§3).  `UResource.instance` is rendered
`instance_` because `instance` is a Lean keyword. -/

structure UAuthority where
  name : Option (List Char)
  number : Option (List Nat)
deriving DecidableEq, Repr

structure UEntity where
  name : List Char
  version_major : Option Nat
  id : Option Nat
deriving DecidableEq, Repr

structure UResource where
  name : List Char
  instance_ : Option (List Char)
  message : Option (List Char)
  id : Option Nat
deriving DecidableEq, Repr

structure UUri where
  authority : Option UAuthority
  entity : Option UEntity
  resource : Option UResource
deriving DecidableEq, Repr

/-- Modelled from the spec: `UResource::from(&str)` (the
resource-segment parser, §4.1) is not under `src/`.  Grammar
`name ["." instance] ["#" message]`: the `#` delimiter is resolved
first (everything after the first `#` is `message`), then the `.`
delimiter on the remainder (everything after the first `.` is
`instance`). -/
def uresourceFrom (s : List Char) : UResource :=
  let pMsg := splitAtFirst '#' s
  let pInst := splitAtFirst '.' pMsg.1
  { name := pInst.1, instance_ := pInst.2, message := pMsg.2, id := none }

/-- Modelled from the spec: `UriValidator::is_empty` is not under
`src/`; per §6 it is true iff Authority, Entity and Resource are all
absent. -/
def uriIsEmpty (u : UUri) : Bool :=
  u.authority.isNone && u.entity.isNone && u.resource.isNone

/-- Modelled from the spec: `UriValidator::is_resolved` is not under
`src/`; per §6 it is true iff every component present on the address
carries both its human-readable field(s) and its numeric id/address
field(s). -/
def uriIsResolved (u : UUri) : Bool :=
  (match u.authority with
   | none => true
   | some a => a.name.isSome && a.number.isSome) &&
  (match u.entity with
   | none => true
   | some e => !e.name.isEmpty && e.id.isSome) &&
  (match u.resource with
   | none => true
   | some r => !r.name.isEmpty && r.id.isSome)

/-! ## Long-form serializer (`TryFrom<&UUri> for String`) -/

/-- Embedding of `UUri::build_authority_part_of_uri`. -/
def buildAuthorityPart (a : UAuthority) : List Char :=
  '/' :: '/' :: (match a.name with | some n => n | none => [])

/-- Embedding of `UUri::build_entity_part_of_uri`. -/
def buildEntityPart (e : UEntity) : List Char :=
  rustTrim e.name ++ '/' ::
    (match e.version_major with | some v => natDec v | none => [])

/-- Embedding of `UUri::build_resource_part_of_uri`. -/
def buildResourcePart (u : UUri) : List Char :=
  match u.resource with
  | none => []
  | some r =>
    '/' :: r.name ++
      (match r.instance_ with | some i => '.' :: i | none => []) ++
      (match r.message with | some m => '#' :: m | none => [])

/-- Embedding of `<String as TryFrom<&UUri>>::try_from`, the long-form
serializer. -/
def serializeUUri (u : UUri) : Except (List Char) (List Char) :=
  if uriIsEmpty u then .error ("URI is empty".data)
  else
    .ok (stripTrailingSlashes
      ((match u.authority with
        | some a => buildAuthorityPart a
        | none => []) ++
       '/' ::
       (match u.entity with
        | some e => buildEntityPart e
        | none => []) ++
       buildResourcePart u))

/-! ## Long-form parser (`UUri::from_str`)

The parser is rendered in two stages mirroring the source's control
flow: `fromStrParts` performs scheme stripping, splitting and the
segment-count dependent branching, producing either the finished
authority-only address (the early `return` at the remote branch) or
the `(authority, name, version, resource)` tuple the source
accumulates in local variables; `finishParse` performs the version
parsing and assembles the address. -/

/-- The scheme-stripping / backslash-normalising step of
`UUri::from_str`. -/
def stripScheme (uri : List Char) : List Char :=
  match afterFirst ':' uri with
  | some rest => rest
  | none => uri.map (fun c => if c = '\\' then '/' else c)

/-- Stage 1 of `UUri::from_str`: everything before the version-parsing
step.  `.inl` is the early authority-only return; `.inr` carries
`(authority, name, version, resource)`. -/
def fromStrParts (uri : List Char) :
    Except (List Char)
      (UUri ⊕ Option UAuthority × List Char × List Char × Option UResource) :=
  if uri.isEmpty then .error ("URI is empty".data)
  else
    let uri2 := stripScheme uri
    let isLocal := !startsSlashSlash uri2
    let parts := patternSplit uri2
    if parts.length < 2 then
      .error ("URI missing UEntity or UResource".data)
    else if isLocal then
      .ok (.inr (none, parts.getD 1 [],
        (if parts.length > 2 then parts.getD 2 [] else []),
        (if parts.length > 3 then some (uresourceFrom (parts.getD 3 [])) else none)))
    else
      match
        (if parts.length > 2 then
          (if (rustTrim (parts.getD 2 [])).isEmpty then none
           else some (some ({ name := some (parts.getD 2 []), number := none } : UAuthority)))
         else some none : Option (Option UAuthority)) with
      | none => .error ("Remote URI missing UAuthority".data)
      | some authority =>
        if parts.length > 3 then
          .ok (.inr (authority, parts.getD 3 [],
            (if parts.length > 4 then parts.getD 4 [] else []),
            (if parts.length > 5 then some (uresourceFrom (parts.getD 5 [])) else none)))
        else
          .ok (.inl { authority := authority, entity := none, resource := none })

/-- Stage 2 of `UUri::from_str`: version parsing and assembly. -/
def finishParse :
    Option UAuthority × List Char × List Char × Option UResource →
    Except (List Char) UUri
  | (authority, name, version, resource) =>
    match
      (if version.isEmpty then some none
       else match parseU32 version with
         | some v => some (some v)
         | none => none : Option (Option Nat)) with
    | none =>
      .error ("Could not parse version number - expected an unsigned integer, got ".data
        ++ version)
    | some ve =>
      .ok { authority := authority,
            entity := some { name := name, version_major := ve, id := none },
            resource := resource }

/-- Embedding of `<UUri as FromStr>::from_str`, the long-form parser. -/
def parseUUri (uri : List Char) : Except (List Char) UUri :=
  match fromStrParts uri with
  | .error e => .error e
  | .ok (.inl u) => .ok u
  | .ok (.inr t) => finishParse t

/-! ## Resolver (`UUri::build_resolved`) -/

/-- Modelled from the spec: the micro-form codec
(`MicroUriSerializer::deserialize`) is not under `src/`; per §6 it is
an opaque `decode(bytes) -> Result<Address>` whose output carries the
numeric ids/addresses.  We model a minimal transparent stand-in: the
first byte flags which components are present (bit 0 Authority, bit 1
Entity, bit 2 Resource) and the following bytes supply the authority
number, the entity id and the resource id, so that every branch of the
resolver is reachable. -/
def microDeserialize : List Nat → Except (List Char) UUri
  | [] => .error ("micro URI is empty".data)
  | flags :: rest =>
    .ok { authority :=
            if flags.testBit 0 then
              some { name := none, number := some [rest.getD 0 0] }
            else none,
          entity :=
            if flags.testBit 1 then
              some { name := [], version_major := none, id := some (rest.getD 1 0) }
            else none,
          resource :=
            if flags.testBit 2 then
              some { name := [], instance_ := none, message := none,
                     id := some (rest.getD 2 0) }
            else none }

/-- Embedding of `UUri::build_resolved`, merging a long-form string and
a micro-form byte sequence into one resolved address. -/
def buildResolved (longUri : List Char) (microUri : List Nat) :
    Except (List Char) UUri :=
  if longUri.isEmpty then .error ("Long URI is empty".data)
  else if microUri.isEmpty then .error ("Micro URI is empty".data)
  else
    match parseUUri longUri with
    | .error e => .error e
    | .ok longParsed =>
      match microDeserialize microUri with
      | .error e => .error e
      | .ok microParsed =>
        match microParsed.authority with
        | none => .error ("Micro URI is missing UAuthority".data)
        | some auth0 =>
          match microParsed.entity with
          | none => .error ("Micro URI is missing UEntity".data)
          | some ue0 =>
            match longParsed.resource with
            | none => .error ("Long URI is missing UResource".data)
            | some ure0 =>
              let auth :=
                match longParsed.authority with
                | some la =>
                  match la.name with
                  | some n => { auth0 with name := some n }
                  | none => auth0
                | none => auth0
              let ue :=
                match longParsed.entity with
                | some le => { ue0 with name := le.name }
                | none => ue0
              let ure :=
                match microParsed.resource with
                | some mr => { ure0 with id := mr.id }
                | none => ure0
              let uri : UUri :=
                { authority := some auth, entity := some ue, resource := some ure }
              if uriIsResolved uri then .ok uri
              else .error ("Could not resolve uri".data)

deriving instance DecidableEq for Except

/-! ## Canonical (well-formed) addresses

The round-trip property does not hold for every string the parser
accepts; it holds on the canonical image of the serializer.  `wfUri`
delimits the addresses whose serialization is canonical: every name is
nonempty and free of the structural characters (`/`, `:`, `\`), the
entity name is trim-stable, the authority name does not trim to
nothing, the resource name is free of the resource delimiters (`.`,
`#`), the instance is free of `#`, versions fit in `u32`, the numeric
id fields (which the long form does not carry) are absent, and the
component shape is one the grammar can express: an entity is required
unless the address is authority-only, and a resource requires an
entity. -/

/-- `s` avoids every character in `bad`. -/
def avoids (bad : List Char) (s : List Char) : Bool :=
  s.all (fun c => !bad.contains c)

/-- A well-formed component name: nonempty, no `/`, `:` or `\`. -/
def wfName (s : List Char) : Bool :=
  !s.isEmpty && avoids ['/', ':', '\\'] s

/-- Well-formed authority for canonical serialization. -/
def wfAuthority (a : UAuthority) : Bool :=
  a.number.isNone &&
  (match a.name with
   | some n => wfName n && !(rustTrim n).isEmpty
   | none => false)

/-- Well-formed entity for canonical serialization. -/
def wfEntity (e : UEntity) : Bool :=
  wfName e.name && (rustTrim e.name == e.name) && e.id.isNone &&
  (match e.version_major with
   | some v => decide (v < 2 ^ 32)
   | none => true)

/-- Well-formed resource for canonical serialization. -/
def wfResource (r : UResource) : Bool :=
  !r.name.isEmpty && avoids ['/', ':', '\\', '.', '#'] r.name &&
  (match r.instance_ with
   | some i => avoids ['/', ':', '\\', '#'] i
   | none => true) &&
  (match r.message with
   | some m => avoids ['/', ':', '\\'] m
   | none => true) &&
  r.id.isNone

/-- Well-formed address: component well-formedness plus a shape the
long-form grammar can express. -/
def wfUri (u : UUri) : Bool :=
  (match u.authority with | some a => wfAuthority a | none => true) &&
  (match u.entity with | some e => wfEntity e | none => true) &&
  (match u.resource with | some r => wfResource r | none => true) &&
  (match u.entity, u.resource with | none, some _ => false | _, _ => true) &&
  (match u.authority, u.entity with | none, none => false | _, _ => true)

/-! ## Lemmas about the string helpers -/

theorem splitSlash_ne_nil : ∀ s : List Char, splitSlash s ≠ []
  | [] => by simp [splitSlash]
  | c :: rest => by
    simp only [splitSlash]
    cases h : splitSlash rest with
    | nil => simp
    | cons a as =>
      by_cases hc : c = '/' <;> simp [hc]

theorem splitSlash_no_slash : ∀ {s : List Char}, '/' ∉ s → splitSlash s = [s]
  | [], _ => rfl
  | c :: rest, h => by
    have hc : ¬(c = '/') := fun hh => h (hh ▸ List.mem_cons_self c rest)
    have hr : '/' ∉ rest := fun hh => h (List.mem_cons_of_mem c hh)
    simp [splitSlash, splitSlash_no_slash hr, hc]

theorem splitSlash_append : ∀ {xs : List Char} (ys : List Char), '/' ∉ xs →
    splitSlash (xs ++ '/' :: ys) = xs :: splitSlash ys
  | [], ys, _ => by
    simp only [List.nil_append, splitSlash]
    cases h : splitSlash ys with
    | nil => exact absurd h (splitSlash_ne_nil ys)
    | cons a as => simp
  | c :: xs, ys, h => by
    have hc : ¬(c = '/') := fun hh => h (hh ▸ List.mem_cons_self c xs)
    have hx : '/' ∉ xs := fun hh => h (List.mem_cons_of_mem c hh)
    simp [splitSlash, splitSlash_append ys hx, hc]

theorem dropTrailingEmpty_append_ne {l : List (List Char)} {x : List Char}
    (h : x ≠ []) : dropTrailingEmpty (l ++ [x]) = l ++ [x] := by
  have hx : x.isEmpty = false := by
    cases x with
    | nil => exact absurd rfl h
    | cons a as => rfl
  simp [dropTrailingEmpty, List.dropWhile, hx]

theorem stripTrailingSlashes_append_slash (s : List Char) :
    stripTrailingSlashes (s ++ ['/']) = stripTrailingSlashes s := by
  simp [stripTrailingSlashes, List.dropWhile]

theorem stripTrailingSlashes_append_ne {s t : List Char} (ht : t ≠ [])
    (h : '/' ∉ t) : stripTrailingSlashes (s ++ t) = s ++ t := by
  cases hr : t.reverse with
  | nil => exact absurd (List.reverse_eq_nil_iff.mp hr) ht
  | cons c r =>
    have hc : c ∈ t := by
      have : c ∈ t.reverse := hr ▸ List.mem_cons_self c r
      exact List.mem_reverse.mp this
    have hcne : ¬(c = '/') := fun hh => h (hh ▸ hc)
    have hteq : t = r.reverse ++ [c] := by
      have := congrArg List.reverse hr
      simpa using this
    simp [stripTrailingSlashes, hr, List.dropWhile, hcne, hteq]

theorem splitAtFirst_not_mem : ∀ {c : Char} {s : List Char}, c ∉ s →
    splitAtFirst c s = (s, none)
  | _, [], _ => rfl
  | c, x :: xs, h => by
    have hx : ¬(x = c) := fun hh => h (hh ▸ List.mem_cons_self x xs)
    have hr : c ∉ xs := fun hh => h (List.mem_cons_of_mem x hh)
    simp [splitAtFirst, splitAtFirst_not_mem hr, hx]

theorem splitAtFirst_append : ∀ {c : Char} {xs : List Char} (ys : List Char),
    c ∉ xs → splitAtFirst c (xs ++ c :: ys) = (xs, some ys)
  | c, [], ys, _ => by simp [splitAtFirst]
  | c, x :: xs, ys, h => by
    have hx : ¬(x = c) := fun hh => h (hh ▸ List.mem_cons_self x xs)
    have hr : c ∉ xs := fun hh => h (List.mem_cons_of_mem x hh)
    simp [splitAtFirst, splitAtFirst_append ys hr, hx]

theorem afterFirst_not_mem : ∀ {c : Char} {s : List Char}, c ∉ s →
    afterFirst c s = none
  | _, [], _ => rfl
  | c, x :: xs, h => by
    have hx : ¬(x = c) := fun hh => h (hh ▸ List.mem_cons_self x xs)
    have hr : c ∉ xs := fun hh => h (List.mem_cons_of_mem x hh)
    simp [afterFirst, afterFirst_not_mem hr, hx]

theorem map_noBackslash : ∀ {s : List Char}, '\\' ∉ s →
    s.map (fun c => if c = '\\' then '/' else c) = s
  | [], _ => rfl
  | x :: xs, h => by
    have hx : ¬(x = '\\') := fun hh => h (hh ▸ List.mem_cons_self x xs)
    have hr : '\\' ∉ xs := fun hh => h (List.mem_cons_of_mem x hh)
    simp [map_noBackslash hr, hx]

theorem stripScheme_eq_self {s : List Char} (h1 : ':' ∉ s) (h2 : '\\' ∉ s) :
    stripScheme s = s := by
  simp [stripScheme, afterFirst_not_mem h1, map_noBackslash h2]

/-! ## Lemmas about the decimal printer and `u32` parsing -/

theorem digitChar_mem_digits {d : Nat} (h : d < 10) :
    digitChar d ∈ ['0', '1', '2', '3', '4', '5', '6', '7', '8', '9'] := by
  interval_cases d <;> decide

theorem digitChar_toNat {d : Nat} (h : d < 10) :
    (digitChar d).toNat = 48 + d := by
  interval_cases d <;> decide

theorem mem_digits_props {c : Char}
    (h : c ∈ ['0', '1', '2', '3', '4', '5', '6', '7', '8', '9']) :
    ('0' ≤ c && c ≤ '9') = true ∧ c ≠ '+' ∧ c ≠ '/' ∧ c ≠ ':' ∧ c ≠ '\\' := by
  fin_cases h <;> refine ⟨by decide, by decide, by decide, by decide, by decide⟩

theorem natDecGo_mem : ∀ (fuel m : Nat), m < fuel →
    ∀ c ∈ natDecGo fuel m, c ∈ ['0', '1', '2', '3', '4', '5', '6', '7', '8', '9']
  | fuel + 1, m, hm => by
    simp only [natDecGo]
    by_cases h10 : m < 10
    · simp only [if_pos h10]
      intro c hc
      have : c = digitChar m := List.mem_singleton.mp hc
      exact this ▸ digitChar_mem_digits h10
    · have hm2 : m / 10 < fuel := by omega
      simp only [if_neg h10]
      intro c hc
      rcases List.mem_append.mp hc with h1 | h1
      · exact natDecGo_mem fuel (m / 10) hm2 c h1
      · have : c = digitChar (m % 10) := List.mem_singleton.mp h1
        exact this ▸ digitChar_mem_digits (Nat.mod_lt _ (by omega))

theorem natDecGo_ne_nil : ∀ (fuel m : Nat), m < fuel → natDecGo fuel m ≠ []
  | fuel + 1, m, _ => by
    simp only [natDecGo]
    by_cases h10 : m < 10 <;> simp [h10]

theorem natDecGo_fold : ∀ (fuel m a : Nat), m < fuel →
    (natDecGo fuel m).foldl (fun acc c => acc * 10 + (c.toNat - 48)) a
      = a * 10 ^ (natDecGo fuel m).length + m
  | fuel + 1, m, a, hm => by
    simp only [natDecGo]
    by_cases h10 : m < 10
    · simp only [if_pos h10, List.foldl_cons, List.foldl_nil, List.length_singleton,
        pow_one]
      rw [digitChar_toNat h10]
      omega
    · have hm2 : m / 10 < fuel := by omega
      simp only [if_neg h10, List.foldl_append, List.foldl_cons, List.foldl_nil,
        List.length_append, List.length_singleton]
      rw [natDecGo_fold fuel (m / 10) a hm2]
      rw [digitChar_toNat (Nat.mod_lt _ (by omega))]
      rw [pow_succ, ← mul_assoc]
      generalize (a * 10 ^ (natDecGo fuel (m / 10)).length : Nat) = b
      have hdm := Nat.div_add_mod m 10
      omega

theorem natDec_mem (n : Nat) :
    ∀ c ∈ natDec n, c ∈ ['0', '1', '2', '3', '4', '5', '6', '7', '8', '9'] :=
  natDecGo_mem (n + 1) n (by omega)

theorem natDec_ne_nil (n : Nat) : natDec n ≠ [] :=
  natDecGo_ne_nil (n + 1) n (by omega)

theorem parseU32_natDec {n : Nat} (h : n < 2 ^ 32) :
    parseU32 (natDec n) = some n := by
  have hmem := natDec_mem n
  have hne := natDec_ne_nil n
  have hfold := natDecGo_fold (n + 1) n 0 (by omega)
  cases hd : natDec n with
  | nil => exact absurd hd hne
  | cons c cs =>
    have hc := hmem c (hd ▸ List.mem_cons_self c cs)
    have hcp : ¬(c = '+') := (mem_digits_props hc).2.1
    have hall : (c :: cs).all (fun c => '0' ≤ c && c ≤ '9') = true := by
      rw [List.all_eq_true]
      intro x hx
      exact (mem_digits_props (hmem x (hd ▸ hx))).1
    rw [natDec] at hd
    simp only [parseU32, natDec, hd, List.head?, Option.some.injEq, if_neg hcp,
      List.isEmpty_cons, hall, if_true]
    rw [hd] at hfold
    rw [show (0 : Nat) * 10 ^ (c :: cs).length + n = n by omega] at hfold
    simp only [List.foldl_cons, Nat.zero_mul, Nat.zero_add] at hfold ⊢
    rw [hfold]
    simp
    omega

/-! ## Round-trip machinery -/

theorem avoids_not_mem {bad s : List Char} (h : avoids bad s = true)
    {c : Char} (hc : c ∈ bad) : c ∉ s := by
  intro hcs
  rw [avoids, List.all_eq_true] at h
  have := h c hcs
  simp at this
  exact this hc

theorem uresourceFrom_serialized {r : UResource} (h : wfResource r = true) :
    uresourceFrom
      (r.name ++
        (match r.instance_ with | some i => '.' :: i | none => []) ++
        (match r.message with | some m => '#' :: m | none => [])) = r := by
  rw [wfResource] at h
  simp only [Bool.and_eq_true] at h
  obtain ⟨⟨⟨⟨hn, han⟩, hai⟩, ham⟩, hid⟩ := h
  have hid2 : r.id = none := Option.isNone_iff_eq_none.mp hid
  have hnd : '.' ∉ r.name := avoids_not_mem han (by decide)
  have hnh : '#' ∉ r.name := avoids_not_mem han (by decide)
  cases hi : r.instance_ with
  | none =>
    cases hm : r.message with
    | none =>
      simp only [uresourceFrom, List.append_nil,
        splitAtFirst_not_mem hnh, splitAtFirst_not_mem hnd]
      cases r
      simp_all
    | some m =>
      simp only [uresourceFrom, List.append_nil, splitAtFirst_append m hnh,
        splitAtFirst_not_mem hnd]
      cases r
      simp_all
  | some i =>
    have hih : '#' ∉ i := by
      rw [hi] at hai
      exact avoids_not_mem hai (by decide)
    have hseg : '#' ∉ r.name ++ '.' :: i := by
      intro hmem
      rcases List.mem_append.mp hmem with h1 | h1
      · exact hnh h1
      · rcases List.mem_cons.mp h1 with h2 | h2
        · exact absurd h2.symm (by decide)
        · exact hih h2
    cases hm : r.message with
    | none =>
      simp only [uresourceFrom, List.append_nil,
        splitAtFirst_not_mem hseg, splitAtFirst_append i hnd]
      cases r
      simp_all
    | some m =>
      simp only [uresourceFrom, List.append_assoc, List.cons_append]
      rw [show r.name ++ '.' :: (i ++ '#' :: m) = (r.name ++ '.' :: i) ++ '#' :: m by simp]
      simp only [splitAtFirst_append m hseg, splitAtFirst_append i hnd]
      cases r
      simp_all

theorem splitSlash_cons_slash (ys : List Char) :
    splitSlash ('/' :: ys) = [] :: splitSlash ys := by
  simpa using @splitSlash_append [] ys (by simp)

theorem notMemCons {c x : Char} {s : List Char} (h1 : c ≠ x) (h2 : c ∉ s) :
    c ∉ x :: s := by
  intro h
  rcases List.mem_cons.mp h with h3 | h3
  · exact h1 h3
  · exact h2 h3

theorem natDec_avoid (v : Nat) :
    ':' ∉ natDec v ∧ '\\' ∉ natDec v ∧ '/' ∉ natDec v := by
  refine ⟨fun h => ?_, fun h => ?_, fun h => ?_⟩ <;>
    exact absurd (natDec_mem v _ h) (by decide)

theorem natDec_isEmpty_false (v : Nat) : (natDec v).isEmpty = false := by
  cases hd : natDec v with
  | nil => exact absurd hd (natDec_ne_nil v)
  | cons a as => rfl

theorem finishParse_noVersion (auth : Option UAuthority) (name : List Char)
    (res : Option UResource) :
    finishParse (auth, name, [], res) =
      .ok { authority := auth,
            entity := some { name := name, version_major := none, id := none },
            resource := res } := by
  simp [finishParse]

theorem finishParse_natDec (auth : Option UAuthority) (name : List Char)
    (res : Option UResource) {v : Nat} (hv : v < 2 ^ 32) :
    finishParse (auth, name, natDec v, res) =
      .ok { authority := auth,
            entity := some { name := name, version_major := some v, id := none },
            resource := res } := by
  simp [finishParse, natDec_isEmpty_false, parseU32_natDec hv]

theorem parse_serialize_authOnly {a : UAuthority} {s : List Char}
    (hwf : wfUri { authority := some a, entity := none, resource := none } = true)
    (hs : serializeUUri { authority := some a, entity := none, resource := none } = .ok s) :
    parseUUri s = .ok { authority := some a, entity := none, resource := none } := by
  rw [wfUri] at hwf
  simp only [Bool.and_eq_true] at hwf
  have hwa := hwf.1.1.1.1
  rw [wfAuthority] at hwa
  simp only [Bool.and_eq_true] at hwa
  obtain ⟨hnum, hname⟩ := hwa
  cases han : a.name with
  | none => rw [han] at hname; simp at hname
  | some n =>
    rw [han] at hname
    simp only [Bool.and_eq_true] at hname
    obtain ⟨hwn, htrim⟩ := hname
    rw [wfName] at hwn
    simp only [Bool.and_eq_true] at hwn
    obtain ⟨hne0, hav⟩ := hwn
    have hne : n ≠ [] := by
      intro h; rw [h] at hne0; simp at hne0
    have hslash : '/' ∉ n := avoids_not_mem hav (by decide)
    have hcolon : ':' ∉ n := avoids_not_mem hav (by decide)
    have hbs : '\\' ∉ n := avoids_not_mem hav (by decide)
    have htrimE : (rustTrim n).isEmpty = false := by
      simp only [Bool.not_eq_true'] at htrim; exact htrim
    -- the serialized string
    rw [serializeUUri] at hs
    rw [if_neg (by simp [uriIsEmpty])] at hs
    simp only [buildAuthorityPart, buildResourcePart, han, List.append_nil] at hs
    have hsv : s = '/' :: '/' :: n := by
      have h1 : ('/' :: '/' :: n) ++ ['/'] = (('/' :: '/' :: n) ++ ['/']) := rfl
      rw [show ('/' :: '/' :: n ++ ['/'] : List Char) = ('/' :: '/' :: n) ++ ['/'] by simp,
        stripTrailingSlashes_append_slash] at hs
      rw [show ('/' :: '/' :: n : List Char) = ['/', '/'] ++ n by simp,
        stripTrailingSlashes_append_ne hne hslash] at hs
      have := Except.ok.inj hs
      rw [← this]; simp
    subst hsv
    -- parsing it back
    have hscheme : stripScheme ('/' :: '/' :: n) = '/' :: '/' :: n :=
      stripScheme_eq_self
        (notMemCons (by decide) (notMemCons (by decide) hcolon))
        (notMemCons (by decide) (notMemCons (by decide) hbs))
    have hsplit : patternSplit ('/' :: '/' :: n) = [[], [], n] := by
      rw [patternSplit, splitSlash_cons_slash, splitSlash_cons_slash,
        splitSlash_no_slash hslash]
      exact dropTrailingEmpty_append_ne (l := [[], []]) hne
    have hloc : startsSlashSlash ('/' :: '/' :: n) = true := rfl
    rw [parseUUri, fromStrParts]
    rw [if_neg (by simp)]
    simp only [hscheme, hsplit, hloc]
    simp only [List.length_cons, List.length_nil, List.getD, Bool.not_true,
      List.getElem?_cons_succ, List.getElem?_cons_zero, Option.getD_some, htrimE]
    norm_num
    cases a
    simp_all

theorem startsSlashSlash_false {nm rest : List Char} (hne : nm ≠ [])
    (hsl : '/' ∉ nm) : startsSlashSlash ('/' :: nm ++ rest) = false := by
  cases nm with
  | nil => exact absurd rfl hne
  | cons c t =>
    have hc : ¬(c = '/') := fun h => hsl (h ▸ List.mem_cons_self c t)
    simp [startsSlashSlash, hc]

theorem startsSlashSlash_false_cons {nm : List Char} (hne : nm ≠ [])
    (hsl : '/' ∉ nm) : startsSlashSlash ('/' :: nm) = false := by
  have := @startsSlashSlash_false nm [] hne hsl
  simpa using this

theorem resText_facts {r : UResource} (h : wfResource r = true) :
    (r.name ++
      ((match r.instance_ with | some i => '.' :: i | none => []) ++
       (match r.message with | some m => '#' :: m | none => []))) ≠ [] ∧
    '/' ∉ (r.name ++
      ((match r.instance_ with | some i => '.' :: i | none => []) ++
       (match r.message with | some m => '#' :: m | none => []))) ∧
    ':' ∉ (r.name ++
      ((match r.instance_ with | some i => '.' :: i | none => []) ++
       (match r.message with | some m => '#' :: m | none => []))) ∧
    '\\' ∉ (r.name ++
      ((match r.instance_ with | some i => '.' :: i | none => []) ++
       (match r.message with | some m => '#' :: m | none => []))) := by
  rw [wfResource] at h
  simp only [Bool.and_eq_true] at h
  obtain ⟨⟨⟨⟨hn0, han⟩, hai⟩, ham⟩, hid⟩ := h
  have hnne : r.name ≠ [] := by
    intro hh; rw [hh] at hn0; simp at hn0
  have instFacts : ∀ c : Char, c = '/' ∨ c = ':' ∨ c = '\\' →
      c ∉ (match r.instance_ with | some i => '.' :: i | none => []) := by
    intro c hc
    cases hi : r.instance_ with
    | none => simp
    | some i =>
      rw [hi] at hai
      refine notMemCons ?_ (avoids_not_mem hai ?_) <;> rcases hc with h | h | h <;>
        subst h <;> decide
  have msgFacts : ∀ c : Char, c = '/' ∨ c = ':' ∨ c = '\\' →
      c ∉ (match r.message with | some m => '#' :: m | none => []) := by
    intro c hc
    cases hm : r.message with
    | none => simp
    | some m =>
      rw [hm] at ham
      refine notMemCons ?_ (avoids_not_mem ham ?_) <;> rcases hc with h | h | h <;>
        subst h <;> decide
  refine ⟨?_, ?_, ?_, ?_⟩
  · intro hh
    exact hnne (List.append_eq_nil.mp hh).1
  · exact List.not_mem_append (avoids_not_mem han (by decide))
      (List.not_mem_append (instFacts '/' (Or.inl rfl))
        (msgFacts '/' (Or.inl rfl)))
  · exact List.not_mem_append (avoids_not_mem han (by decide))
      (List.not_mem_append (instFacts ':' (Or.inr (Or.inl rfl)))
        (msgFacts ':' (Or.inr (Or.inl rfl))))
  · exact List.not_mem_append (avoids_not_mem han (by decide))
      (List.not_mem_append (instFacts '\\' (Or.inr (Or.inr rfl)))
        (msgFacts '\\' (Or.inr (Or.inr rfl))))

theorem parse_serialize_local {e : UEntity} {r? : Option UResource} {s : List Char}
    (hwf : wfUri { authority := none, entity := some e, resource := r? } = true)
    (hs : serializeUUri { authority := none, entity := some e, resource := r? } = .ok s) :
    parseUUri s = .ok { authority := none, entity := some e, resource := r? } := by
  obtain ⟨nm, vm, eid⟩ := e
  rw [wfUri] at hwf
  simp only [Bool.and_eq_true] at hwf
  have hwe := hwf.1.1.1.2
  have hwr := hwf.1.1.2
  rw [wfEntity] at hwe
  simp only [Bool.and_eq_true] at hwe
  obtain ⟨⟨⟨hwn, htreq⟩, hideq⟩, hver⟩ := hwe
  have hid : eid = none := Option.isNone_iff_eq_none.mp hideq
  subst hid
  have htrEq : rustTrim nm = nm := eq_of_beq htreq
  rw [wfName] at hwn
  simp only [Bool.and_eq_true] at hwn
  obtain ⟨hne0, hav⟩ := hwn
  have hne : nm ≠ [] := by
    intro h; rw [h] at hne0; simp at hne0
  have hsl : '/' ∉ nm := avoids_not_mem hav (by decide)
  have hco : ':' ∉ nm := avoids_not_mem hav (by decide)
  have hbs : '\\' ∉ nm := avoids_not_mem hav (by decide)
  rw [serializeUUri] at hs
  rw [if_neg (by simp [uriIsEmpty])] at hs
  simp only [buildEntityPart, buildResourcePart, htrEq, List.nil_append] at hs
  cases r? with
  | none =>
    cases vm with
    | none =>
      -- s = '/' :: nm
      have hsv : s = '/' :: nm := by
        rw [show ('/' :: (nm ++ '/' :: []) ++ [] : List Char)
            = ('/' :: nm) ++ ['/'] by simp] at hs
        rw [stripTrailingSlashes_append_slash] at hs
        rw [show ('/' :: nm : List Char) = ['/'] ++ nm by simp,
          stripTrailingSlashes_append_ne hne hsl] at hs
        have := Except.ok.inj hs
        rw [← this]; simp
      subst hsv
      have hscheme : stripScheme ('/' :: nm) = '/' :: nm :=
        stripScheme_eq_self (notMemCons (by decide) hco) (notMemCons (by decide) hbs)
      have hsplit : patternSplit ('/' :: nm) = [[], nm] := by
        rw [patternSplit, splitSlash_cons_slash, splitSlash_no_slash hsl]
        exact dropTrailingEmpty_append_ne (l := [[]]) hne
      have hloc : startsSlashSlash ('/' :: nm) = false :=
        startsSlashSlash_false_cons hne hsl
      rw [parseUUri, fromStrParts]
      rw [if_neg (by simp)]
      simp only [hscheme, hsplit, hloc, Bool.not_false, if_true,
        List.length_cons, List.length_nil, List.getD,
        List.getElem?_cons_succ, List.getElem?_cons_zero, Option.getD_some]
      norm_num
      rw [finishParse_noVersion]
    | some v =>
      have hv : v < 2 ^ 32 := of_decide_eq_true hver
      have hsv : s = '/' :: (nm ++ '/' :: natDec v) := by
        rw [show ('/' :: (nm ++ '/' :: natDec v) ++ [] : List Char)
            = ('/' :: nm ++ ['/']) ++ natDec v by simp] at hs
        rw [stripTrailingSlashes_append_ne (natDec_ne_nil v) (natDec_avoid v).2.2] at hs
        have := Except.ok.inj hs
        rw [← this]; simp
      subst hsv
      have hscheme : stripScheme ('/' :: (nm ++ '/' :: natDec v))
          = '/' :: (nm ++ '/' :: natDec v) :=
        stripScheme_eq_self
          (notMemCons (by decide)
            (List.not_mem_append hco (notMemCons (by decide) (natDec_avoid v).1)))
          (notMemCons (by decide)
            (List.not_mem_append hbs (notMemCons (by decide) (natDec_avoid v).2.1)))
      have hsplit : patternSplit ('/' :: (nm ++ '/' :: natDec v)) = [[], nm, natDec v] := by
        rw [patternSplit, splitSlash_cons_slash, splitSlash_append _ hsl,
          splitSlash_no_slash (natDec_avoid v).2.2]
        exact dropTrailingEmpty_append_ne (l := [[], nm]) (natDec_ne_nil v)
      have hloc : startsSlashSlash ('/' :: (nm ++ '/' :: natDec v)) = false :=
        startsSlashSlash_false hne hsl
      rw [parseUUri, fromStrParts]
      rw [if_neg (by simp)]
      simp only [hscheme, hsplit, hloc, Bool.not_false, if_true,
        List.length_cons, List.length_nil, List.getD,
        List.getElem?_cons_succ, List.getElem?_cons_zero, Option.getD_some]
      norm_num
      rw [finishParse_natDec _ _ _ hv]
  | some r =>
    have hwr2 : wfResource r = true := hwr
    have hru : uresourceFrom (r.name ++
        ((match r.instance_ with | some i => '.' :: i | none => []) ++
         (match r.message with | some m => '#' :: m | none => []))) = r := by
      rw [← List.append_assoc]
      exact uresourceFrom_serialized hwr2
    obtain ⟨hrne, hrsl, hrco, hrbs⟩ := resText_facts hwr2
    cases vm with
    | none =>
      simp only [List.cons_append, List.append_assoc, List.nil_append,
        List.append_nil] at hs
      generalize hR : r.name ++
          ((match r.instance_ with | some i => '.' :: i | none => ([] : List Char)) ++
           (match r.message with | some m => '#' :: m | none => ([] : List Char))) = R
        at hru hrne hrsl hrco hrbs hs
      have hsv : s = '/' :: (nm ++ '/' :: '/' :: R) := by
        rw [show ('/' :: (nm ++ '/' :: '/' :: R) : List Char)
            = ('/' :: (nm ++ ['/', '/'])) ++ R by simp] at hs
        rw [stripTrailingSlashes_append_ne hrne hrsl] at hs
        have := Except.ok.inj hs
        rw [← this]; simp
      subst hsv
      have hscheme : stripScheme ('/' :: (nm ++ '/' :: '/' :: R))
          = '/' :: (nm ++ '/' :: '/' :: R) :=
        stripScheme_eq_self
          (notMemCons (by decide)
            (List.not_mem_append hco
              (notMemCons (by decide) (notMemCons (by decide) hrco))))
          (notMemCons (by decide)
            (List.not_mem_append hbs
              (notMemCons (by decide) (notMemCons (by decide) hrbs))))
      have hsplit : patternSplit ('/' :: (nm ++ '/' :: '/' :: R)) = [[], nm, [], R] := by
        rw [patternSplit, splitSlash_cons_slash, splitSlash_append _ hsl,
          splitSlash_cons_slash, splitSlash_no_slash hrsl]
        exact dropTrailingEmpty_append_ne (l := [[], nm, []]) hrne
      have hloc : startsSlashSlash ('/' :: (nm ++ '/' :: '/' :: R)) = false :=
        startsSlashSlash_false hne hsl
      rw [parseUUri, fromStrParts]
      rw [if_neg (by simp)]
      simp only [hscheme, hsplit, hloc, Bool.not_false, if_true,
        List.length_cons, List.length_nil, List.getD,
        List.getElem?_cons_succ, List.getElem?_cons_zero, Option.getD_some]
      norm_num
      rw [hru, finishParse_noVersion]
    | some v =>
      have hv : v < 2 ^ 32 := of_decide_eq_true hver
      simp only [List.cons_append, List.append_assoc, List.nil_append,
        List.append_nil] at hs
      generalize hR : r.name ++
          ((match r.instance_ with | some i => '.' :: i | none => ([] : List Char)) ++
           (match r.message with | some m => '#' :: m | none => ([] : List Char))) = R
        at hru hrne hrsl hrco hrbs hs
      have hsv : s = '/' :: (nm ++ '/' :: (natDec v ++ '/' :: R)) := by
        rw [show ('/' :: (nm ++ '/' :: (natDec v ++ '/' :: R)) : List Char)
            = ('/' :: (nm ++ '/' :: (natDec v ++ ['/']))) ++ R by simp] at hs
        rw [stripTrailingSlashes_append_ne hrne hrsl] at hs
        have := Except.ok.inj hs
        rw [← this]; simp
      subst hsv
      have hscheme : stripScheme ('/' :: (nm ++ '/' :: (natDec v ++ '/' :: R)))
          = '/' :: (nm ++ '/' :: (natDec v ++ '/' :: R)) :=
        stripScheme_eq_self
          (notMemCons (by decide)
            (List.not_mem_append hco
              (notMemCons (by decide)
                (List.not_mem_append (natDec_avoid v).1
                  (notMemCons (by decide) hrco)))))
          (notMemCons (by decide)
            (List.not_mem_append hbs
              (notMemCons (by decide)
                (List.not_mem_append (natDec_avoid v).2.1
                  (notMemCons (by decide) hrbs)))))
      have hsplit : patternSplit ('/' :: (nm ++ '/' :: (natDec v ++ '/' :: R)))
          = [[], nm, natDec v, R] := by
        rw [patternSplit, splitSlash_cons_slash, splitSlash_append _ hsl,
          splitSlash_append _ (natDec_avoid v).2.2, splitSlash_no_slash hrsl]
        exact dropTrailingEmpty_append_ne (l := [[], nm, natDec v]) hrne
      have hloc : startsSlashSlash ('/' :: (nm ++ '/' :: (natDec v ++ '/' :: R)))
          = false := startsSlashSlash_false hne hsl
      rw [parseUUri, fromStrParts]
      rw [if_neg (by simp)]
      simp only [hscheme, hsplit, hloc, Bool.not_false, if_true,
        List.length_cons, List.length_nil, List.getD,
        List.getElem?_cons_succ, List.getElem?_cons_zero, Option.getD_some]
      norm_num
      rw [hru, finishParse_natDec _ _ _ hv]

theorem parse_serialize_remote {a : UAuthority} {e : UEntity} {r? : Option UResource}
    {s : List Char}
    (hwf : wfUri { authority := some a, entity := some e, resource := r? } = true)
    (hs : serializeUUri { authority := some a, entity := some e, resource := r? } = .ok s) :
    parseUUri s = .ok { authority := some a, entity := some e, resource := r? } := by
  obtain ⟨nm, vm, eid⟩ := e
  rw [wfUri] at hwf
  simp only [Bool.and_eq_true] at hwf
  have hwa := hwf.1.1.1.1
  have hwe := hwf.1.1.1.2
  have hwr := hwf.1.1.2
  rw [wfAuthority] at hwa
  simp only [Bool.and_eq_true] at hwa
  obtain ⟨hnum, hname⟩ := hwa
  cases han : a.name with
  | none => rw [han] at hname; simp at hname
  | some an =>
  rw [han] at hname
  simp only [Bool.and_eq_true] at hname
  obtain ⟨hwan, hatrim⟩ := hname
  rw [wfName] at hwan
  simp only [Bool.and_eq_true] at hwan
  obtain ⟨hane0, haav⟩ := hwan
  have hanne : an ≠ [] := by
    intro h; rw [h] at hane0; simp at hane0
  have hasl : '/' ∉ an := avoids_not_mem haav (by decide)
  have haco : ':' ∉ an := avoids_not_mem haav (by decide)
  have habs : '\\' ∉ an := avoids_not_mem haav (by decide)
  have hatrimE : (rustTrim an).isEmpty = false := by
    simp only [Bool.not_eq_true'] at hatrim; exact hatrim
  have hatrimNe : rustTrim an ≠ [] := by
    intro hh; rw [hh] at hatrimE; simp at hatrimE
  have haEq : a = { name := some an, number := none } := by
    cases a
    simp_all [Option.isNone_iff_eq_none]
  rw [wfEntity] at hwe
  simp only [Bool.and_eq_true] at hwe
  obtain ⟨⟨⟨hwn, htreq⟩, hideq⟩, hver⟩ := hwe
  have hid : eid = none := Option.isNone_iff_eq_none.mp hideq
  subst hid
  have htrEq : rustTrim nm = nm := eq_of_beq htreq
  rw [wfName] at hwn
  simp only [Bool.and_eq_true] at hwn
  obtain ⟨hne0, hav⟩ := hwn
  have hne : nm ≠ [] := by
    intro h; rw [h] at hne0; simp at hne0
  have hsl : '/' ∉ nm := avoids_not_mem hav (by decide)
  have hco : ':' ∉ nm := avoids_not_mem hav (by decide)
  have hbs : '\\' ∉ nm := avoids_not_mem hav (by decide)
  rw [serializeUUri] at hs
  rw [if_neg (by simp [uriIsEmpty])] at hs
  simp only [buildEntityPart, buildResourcePart, buildAuthorityPart, han, htrEq] at hs
  cases r? with
  | none =>
    cases vm with
    | none =>
      simp only [List.cons_append, List.append_assoc, List.nil_append,
        List.append_nil] at hs
      have hsv : s = '/' :: '/' :: (an ++ '/' :: nm) := by
        rw [show ('/' :: '/' :: (an ++ '/' :: (nm ++ ['/'])) : List Char)
            = ('/' :: '/' :: (an ++ '/' :: nm)) ++ ['/'] by simp] at hs
        rw [stripTrailingSlashes_append_slash] at hs
        rw [show ('/' :: '/' :: (an ++ '/' :: nm) : List Char)
            = ('/' :: '/' :: an ++ ['/']) ++ nm by simp] at hs
        rw [stripTrailingSlashes_append_ne hne hsl] at hs
        have := Except.ok.inj hs
        rw [← this]; simp
      subst hsv
      have hscheme : stripScheme ('/' :: '/' :: (an ++ '/' :: nm))
          = '/' :: '/' :: (an ++ '/' :: nm) :=
        stripScheme_eq_self
          (notMemCons (by decide) (notMemCons (by decide)
            (List.not_mem_append haco (notMemCons (by decide) hco))))
          (notMemCons (by decide) (notMemCons (by decide)
            (List.not_mem_append habs (notMemCons (by decide) hbs))))
      have hsplit : patternSplit ('/' :: '/' :: (an ++ '/' :: nm))
          = [[], [], an, nm] := by
        rw [patternSplit, splitSlash_cons_slash, splitSlash_cons_slash,
          splitSlash_append _ hasl, splitSlash_no_slash hsl]
        exact dropTrailingEmpty_append_ne (l := [[], [], an]) hne
      have hloc : startsSlashSlash ('/' :: '/' :: (an ++ '/' :: nm)) = true := rfl
      rw [parseUUri, fromStrParts]
      rw [if_neg (by simp)]
      simp only [hscheme, hsplit, hloc, Bool.not_true,
        List.length_cons, List.length_nil, List.getD,
        List.getElem?_cons_succ, List.getElem?_cons_zero, Option.getD_some, hatrimE]
      norm_num
      rw [if_neg hatrimNe]
      dsimp only
      rw [finishParse_noVersion, haEq]
    | some v =>
      have hv : v < 2 ^ 32 := of_decide_eq_true hver
      simp only [List.cons_append, List.append_assoc, List.nil_append,
        List.append_nil] at hs
      have hsv : s = '/' :: '/' :: (an ++ '/' :: (nm ++ '/' :: natDec v)) := by
        rw [show ('/' :: '/' :: (an ++ '/' :: (nm ++ '/' :: natDec v)) : List Char)
            = ('/' :: '/' :: (an ++ '/' :: (nm ++ ['/']))) ++ natDec v by simp] at hs
        rw [stripTrailingSlashes_append_ne (natDec_ne_nil v) (natDec_avoid v).2.2] at hs
        have := Except.ok.inj hs
        rw [← this]; simp
      subst hsv
      have hscheme : stripScheme ('/' :: '/' :: (an ++ '/' :: (nm ++ '/' :: natDec v)))
          = '/' :: '/' :: (an ++ '/' :: (nm ++ '/' :: natDec v)) :=
        stripScheme_eq_self
          (notMemCons (by decide) (notMemCons (by decide)
            (List.not_mem_append haco (notMemCons (by decide)
              (List.not_mem_append hco (notMemCons (by decide) (natDec_avoid v).1))))))
          (notMemCons (by decide) (notMemCons (by decide)
            (List.not_mem_append habs (notMemCons (by decide)
              (List.not_mem_append hbs (notMemCons (by decide) (natDec_avoid v).2.1))))))
      have hsplit : patternSplit ('/' :: '/' :: (an ++ '/' :: (nm ++ '/' :: natDec v)))
          = [[], [], an, nm, natDec v] := by
        rw [patternSplit, splitSlash_cons_slash, splitSlash_cons_slash,
          splitSlash_append _ hasl, splitSlash_append _ hsl,
          splitSlash_no_slash (natDec_avoid v).2.2]
        exact dropTrailingEmpty_append_ne (l := [[], [], an, nm]) (natDec_ne_nil v)
      have hloc : startsSlashSlash
          ('/' :: '/' :: (an ++ '/' :: (nm ++ '/' :: natDec v))) = true := rfl
      rw [parseUUri, fromStrParts]
      rw [if_neg (by simp)]
      simp only [hscheme, hsplit, hloc, Bool.not_true,
        List.length_cons, List.length_nil, List.getD,
        List.getElem?_cons_succ, List.getElem?_cons_zero, Option.getD_some, hatrimE]
      norm_num
      rw [if_neg hatrimNe]
      dsimp only
      rw [finishParse_natDec _ _ _ hv, haEq]
  | some r =>
    have hwr2 : wfResource r = true := hwr
    have hru : uresourceFrom (r.name ++
        ((match r.instance_ with | some i => '.' :: i | none => []) ++
         (match r.message with | some m => '#' :: m | none => []))) = r := by
      rw [← List.append_assoc]
      exact uresourceFrom_serialized hwr2
    obtain ⟨hrne, hrsl, hrco, hrbs⟩ := resText_facts hwr2
    cases vm with
    | none =>
      simp only [List.cons_append, List.append_assoc, List.nil_append,
        List.append_nil] at hs
      generalize hR : r.name ++
          ((match r.instance_ with | some i => '.' :: i | none => ([] : List Char)) ++
           (match r.message with | some m => '#' :: m | none => ([] : List Char))) = R
        at hru hrne hrsl hrco hrbs hs
      have hsv : s = '/' :: '/' :: (an ++ '/' :: (nm ++ '/' :: '/' :: R)) := by
        rw [show ('/' :: '/' :: (an ++ '/' :: (nm ++ '/' :: '/' :: R)) : List Char)
            = ('/' :: '/' :: (an ++ '/' :: (nm ++ ['/', '/']))) ++ R by simp] at hs
        rw [stripTrailingSlashes_append_ne hrne hrsl] at hs
        have := Except.ok.inj hs
        rw [← this]; simp
      subst hsv
      have hscheme : stripScheme ('/' :: '/' :: (an ++ '/' :: (nm ++ '/' :: '/' :: R)))
          = '/' :: '/' :: (an ++ '/' :: (nm ++ '/' :: '/' :: R)) :=
        stripScheme_eq_self
          (notMemCons (by decide) (notMemCons (by decide)
            (List.not_mem_append haco (notMemCons (by decide)
              (List.not_mem_append hco (notMemCons (by decide)
                (notMemCons (by decide) hrco)))))))
          (notMemCons (by decide) (notMemCons (by decide)
            (List.not_mem_append habs (notMemCons (by decide)
              (List.not_mem_append hbs (notMemCons (by decide)
                (notMemCons (by decide) hrbs)))))))
      have hsplit : patternSplit ('/' :: '/' :: (an ++ '/' :: (nm ++ '/' :: '/' :: R)))
          = [[], [], an, nm, [], R] := by
        rw [patternSplit, splitSlash_cons_slash, splitSlash_cons_slash,
          splitSlash_append _ hasl, splitSlash_append _ hsl,
          splitSlash_cons_slash, splitSlash_no_slash hrsl]
        exact dropTrailingEmpty_append_ne (l := [[], [], an, nm, []]) hrne
      have hloc : startsSlashSlash
          ('/' :: '/' :: (an ++ '/' :: (nm ++ '/' :: '/' :: R))) = true := rfl
      rw [parseUUri, fromStrParts]
      rw [if_neg (by simp)]
      simp only [hscheme, hsplit, hloc, Bool.not_true,
        List.length_cons, List.length_nil, List.getD,
        List.getElem?_cons_succ, List.getElem?_cons_zero, Option.getD_some, hatrimE]
      norm_num
      rw [hru, if_neg hatrimNe]
      dsimp only
      rw [finishParse_noVersion, haEq]
    | some v =>
      have hv : v < 2 ^ 32 := of_decide_eq_true hver
      simp only [List.cons_append, List.append_assoc, List.nil_append,
        List.append_nil] at hs
      generalize hR : r.name ++
          ((match r.instance_ with | some i => '.' :: i | none => ([] : List Char)) ++
           (match r.message with | some m => '#' :: m | none => ([] : List Char))) = R
        at hru hrne hrsl hrco hrbs hs
      have hsv : s = '/' :: '/' :: (an ++ '/' :: (nm ++ '/' :: (natDec v ++ '/' :: R))) := by
        rw [show ('/' :: '/' :: (an ++ '/' :: (nm ++ '/' :: (natDec v ++ '/' :: R))) : List Char)
            = ('/' :: '/' :: (an ++ '/' :: (nm ++ '/' :: (natDec v ++ ['/'])))) ++ R by simp] at hs
        rw [stripTrailingSlashes_append_ne hrne hrsl] at hs
        have := Except.ok.inj hs
        rw [← this]; simp
      subst hsv
      have hscheme : stripScheme
          ('/' :: '/' :: (an ++ '/' :: (nm ++ '/' :: (natDec v ++ '/' :: R))))
          = '/' :: '/' :: (an ++ '/' :: (nm ++ '/' :: (natDec v ++ '/' :: R))) :=
        stripScheme_eq_self
          (notMemCons (by decide) (notMemCons (by decide)
            (List.not_mem_append haco (notMemCons (by decide)
              (List.not_mem_append hco (notMemCons (by decide)
                (List.not_mem_append (natDec_avoid v).1
                  (notMemCons (by decide) hrco))))))))
          (notMemCons (by decide) (notMemCons (by decide)
            (List.not_mem_append habs (notMemCons (by decide)
              (List.not_mem_append hbs (notMemCons (by decide)
                (List.not_mem_append (natDec_avoid v).2.1
                  (notMemCons (by decide) hrbs))))))))
      have hsplit : patternSplit
          ('/' :: '/' :: (an ++ '/' :: (nm ++ '/' :: (natDec v ++ '/' :: R))))
          = [[], [], an, nm, natDec v, R] := by
        rw [patternSplit, splitSlash_cons_slash, splitSlash_cons_slash,
          splitSlash_append _ hasl, splitSlash_append _ hsl,
          splitSlash_append _ (natDec_avoid v).2.2, splitSlash_no_slash hrsl]
        exact dropTrailingEmpty_append_ne (l := [[], [], an, nm, natDec v]) hrne
      have hloc : startsSlashSlash
          ('/' :: '/' :: (an ++ '/' :: (nm ++ '/' :: (natDec v ++ '/' :: R)))) = true := rfl
      rw [parseUUri, fromStrParts]
      rw [if_neg (by simp)]
      simp only [hscheme, hsplit, hloc, Bool.not_true,
        List.length_cons, List.length_nil, List.getD,
        List.getElem?_cons_succ, List.getElem?_cons_zero, Option.getD_some, hatrimE]
      norm_num
      rw [hru, if_neg hatrimNe]
      dsimp only
      rw [finishParse_natDec _ _ _ hv, haEq]

/-- For a well-formed address, parsing its serialization recovers the
address exactly. -/
theorem parse_serialize_wf {u : UUri} {s : List Char} (hwf : wfUri u = true)
    (hs : serializeUUri u = .ok s) : parseUUri s = .ok u := by
  obtain ⟨a?, e?, r?⟩ := u
  cases a? with
  | some a =>
    cases e? with
    | none =>
      cases r? with
      | some r => simp [wfUri] at hwf
      | none => exact parse_serialize_authOnly hwf hs
    | some e => exact parse_serialize_remote hwf hs
  | none =>
    cases e? with
    | none => simp [wfUri] at hwf
    | some e => exact parse_serialize_local hwf hs

/-! ## Claim theorems -/

/-- C4: in the long-form parser, an empty version segment yields
`version_major = none` (never `some 0`); a non-empty version segment
that parses as an unsigned 32-bit integer yields `some` of that value,
so `0` is observed only when written explicitly; and a non-empty
version segment that does not parse as a `u32` makes parsing fail with
an error that carries the offending raw text. -/
theorem C4_version_parsing (uri : List Char) (a : Option UAuthority)
    (nm v : List Char) (r : Option UResource)
    (h : fromStrParts uri = .ok (.inr (a, nm, v, r))) :
    (v = [] → parseUUri uri =
      .ok { authority := a,
            entity := some { name := nm, version_major := none, id := none },
            resource := r }) ∧
    (∀ k, parseU32 v = some k → parseUUri uri =
      .ok { authority := a,
            entity := some { name := nm, version_major := some k, id := none },
            resource := r }) ∧
    (v ≠ [] → parseU32 v = none → parseUUri uri =
      .error ("Could not parse version number - expected an unsigned integer, got ".data
        ++ v)) := by
  rw [parseUUri, h]
  refine ⟨?_, ?_, ?_⟩
  · intro hv
    subst hv
    simp [finishParse]
  · intro k hk
    have hvne : v.isEmpty = false := by
      cases hv : v with
      | nil => rw [hv] at hk; simp [parseU32] at hk
      | cons c cs => rfl
    simp [finishParse, hvne, hk]
  · intro hv hk
    have hvne : v.isEmpty = false := by
      cases hv2 : v with
      | nil => exact absurd hv2 hv
      | cons c cs => rfl
    simp [finishParse, hvne, hk]

/-- C4 witness: concrete inputs discharging each hypothesis of
`C4_version_parsing`. -/
theorem C4_version_parsing_witness :
    (parseUUri "/e".data =
      .ok { authority := none,
            entity := some { name := ['e'], version_major := none, id := none },
            resource := none }) ∧
    (parseUUri "/e/1".data =
      .ok { authority := none,
            entity := some { name := ['e'], version_major := some 1, id := none },
            resource := none }) ∧
    (parseUUri "/e/xy".data =
      .error ("Could not parse version number - expected an unsigned integer, got ".data
        ++ ['x', 'y'])) :=
  ⟨(C4_version_parsing "/e".data none ['e'] [] none (by decide)).1 rfl,
   (C4_version_parsing "/e/1".data none ['e'] ['1'] none (by decide)).2.1 1 (by decide),
   (C4_version_parsing "/e/xy".data none ['e'] ['x', 'y'] none (by decide)).2.2
     (by decide) (by decide)⟩

/-- C6: parsing the empty string, a single slash, a double slash, and
`body.access` preceded by three, four, five or six slashes all fail. -/
theorem C6_invalid_inputs :
    (∃ e, parseUUri "".data = .error e) ∧
    (∃ e, parseUUri "/".data = .error e) ∧
    (∃ e, parseUUri "//".data = .error e) ∧
    (∃ e, parseUUri "///body.access".data = .error e) ∧
    (∃ e, parseUUri "////body.access".data = .error e) ∧
    (∃ e, parseUUri "/////body.access".data = .error e) ∧
    (∃ e, parseUUri "//////body.access".data = .error e) :=
  ⟨⟨_, rfl⟩, ⟨_, rfl⟩, ⟨_, rfl⟩, ⟨_, rfl⟩, ⟨_, rfl⟩, ⟨_, rfl⟩, ⟨_, rfl⟩⟩

/-- C7: `/body.access/1/door.front_left#Door` parses to the expected
local address, and in general the resource segment is split at the
first `#` for the message and then at the first `.` of the remainder
for the instance. -/
theorem C7_resource_segment :
    (parseUUri "/body.access/1/door.front_left#Door".data =
      .ok { authority := none,
            entity := some { name := "body.access".data, version_major := some 1,
                             id := none },
            resource := some { name := "door".data,
                               instance_ := some "front_left".data,
                               message := some "Door".data, id := none } }) ∧
    (∀ nm inst msg : List Char, '#' ∉ nm → '.' ∉ nm → '#' ∉ inst →
      uresourceFrom (nm ++ '.' :: inst ++ '#' :: msg) =
        { name := nm, instance_ := some inst, message := some msg, id := none }) ∧
    (∀ nmInst msg : List Char, '#' ∉ nmInst →
      (uresourceFrom (nmInst ++ '#' :: msg)).message = some msg) := by
  refine ⟨by decide, ?_, ?_⟩
  · intro nm inst msg hnm hnd hinst
    have hseg : '#' ∉ nm ++ '.' :: inst := by
      intro hmem
      rcases List.mem_append.mp hmem with h1 | h1
      · exact hnm h1
      · rcases List.mem_cons.mp h1 with h2 | h2
        · exact absurd h2.symm (by decide)
        · exact hinst h2
    simp only [uresourceFrom, splitAtFirst_append msg hseg,
      splitAtFirst_append inst hnd]
  · intro nmInst msg hn
    simp only [uresourceFrom, splitAtFirst_append msg hn]

/-- C7 witness: the general splitting conjuncts of `C7_resource_segment`
applied at the concrete resource segment `door.front_left#Door`. -/
theorem C7_resource_segment_witness :
    uresourceFrom ("door".data ++ '.' :: "front_left".data ++ '#' :: "Door".data) =
      { name := "door".data, instance_ := some "front_left".data,
        message := some "Door".data, id := none } ∧
    (uresourceFrom ("rpc".data ++ '#' :: "Msg".data)).message = some "Msg".data :=
  ⟨C7_resource_segment.2.1 "door".data "front_left".data "Door".data
     (by decide) (by decide) (by decide),
   C7_resource_segment.2.2 "rpc".data "Msg".data (by decide)⟩

/-- C9: serialization fails exactly on addresses that are empty per the
external emptiness predicate: an empty address yields an error, and
any non-empty address yields a string. -/
theorem C9_serialize_empty (u : UUri) :
    (uriIsEmpty u = true → ∃ e, serializeUUri u = .error e) ∧
    (uriIsEmpty u = false → ∃ s, serializeUUri u = .ok s) := by
  constructor <;> intro h <;> simp [serializeUUri, h]

/-- C9 witness: `C9_serialize_empty` applied to the empty address and
to an authority-only address. -/
theorem C9_serialize_empty_witness :
    (∃ e, serializeUUri { authority := none, entity := none, resource := none }
      = .error e) ∧
    (∃ s, serializeUUri
      { authority := some { name := some ['a'], number := none },
        entity := none, resource := none } = .ok s) :=
  ⟨(C9_serialize_empty _).1 rfl, (C9_serialize_empty _).2 rfl⟩

/-- C10: an address whose Authority is present but carries no name
(Entity and Resource absent) is not empty per the emptiness predicate,
yet serializes successfully to the empty string: the emitted `//` and
the mandatory `/` are entirely removed by trailing-slash stripping. -/
theorem C10_unnamed_authority :
    uriIsEmpty { authority := some { name := none, number := none },
                 entity := none, resource := none } = false ∧
    serializeUUri { authority := some { name := none, number := none },
                    entity := none, resource := none } = .ok [] :=
  ⟨rfl, by decide⟩

/-- C5: `//VCU.MY_CAR_VIN` parses to an authority-only address
(Authority named, Entity and Resource absent), and in general a
remote-form input with a non-blank authority segment and no further
segments is a success, not an error. -/
theorem C5_authority_only :
    (parseUUri "//VCU.MY_CAR_VIN".data =
      .ok { authority := some { name := some "VCU.MY_CAR_VIN".data, number := none },
            entity := none, resource := none }) ∧
    (∀ uri a, startsSlashSlash (stripScheme uri) = true →
      patternSplit (stripScheme uri) = [[], [], a] →
      rustTrim a ≠ [] →
      parseUUri uri =
        .ok { authority := some { name := some a, number := none },
              entity := none, resource := none }) := by
  refine ⟨by decide, ?_⟩
  intro uri a h1 h2 h3
  have hne : uri ≠ [] := by
    intro h0
    subst h0
    rw [show patternSplit (stripScheme ([] : List Char)) = [] from rfl] at h2
    exact absurd h2 (by simp)
  have hie : uri.isEmpty = false := by
    cases uri with
    | nil => exact absurd rfl hne
    | cons c cs => rfl
  rw [parseUUri, fromStrParts]
  rw [if_neg (by simp [hie])]
  simp only [h1, h2, Bool.not_true, List.length_cons, List.length_nil, List.getD,
    List.getElem?_cons_succ, List.getElem?_cons_zero, Option.getD_some]
  norm_num
  rw [if_neg h3]

/-- C5 witness: the general conjunct of `C5_authority_only` applied at
the concrete remote input `//VCU.MY_CAR_VIN`. -/
theorem C5_authority_only_witness :
    parseUUri "//VCU.MY_CAR_VIN".data =
      .ok { authority := some { name := some "VCU.MY_CAR_VIN".data, number := none },
            entity := none, resource := none } :=
  C5_authority_only.2 "//VCU.MY_CAR_VIN".data "VCU.MY_CAR_VIN".data
    (by decide) (by decide) (by decide)

/-- C1 counterexample: `/e/01` has no custom scheme prefix and no
redundant trailing slashes, parsing succeeds, yet serializing the
parsed address yields `/e/1`, not `/e/01`: the round trip fails on a
canonical string in the claim's sense. -/
theorem C1_roundtrip_counterexample :
    ':' ∉ "/e/01".data ∧
    stripTrailingSlashes "/e/01".data = "/e/01".data ∧
    parseUUri "/e/01".data =
      .ok { authority := none,
            entity := some { name := ['e'], version_major := some 1, id := none },
            resource := none } ∧
    serializeUUri
      { authority := none,
        entity := some { name := ['e'], version_major := some 1, id := none },
        resource := none } = .ok "/e/1".data ∧
    "/e/1".data ≠ "/e/01".data :=
  ⟨by decide, by decide, by decide, by decide, by decide⟩

/-- C1 (amended): the round trip holds on the canonical image of the
serializer: for every string `s` obtained by serializing a well-formed
address (`wfUri`), parsing `s` succeeds and serializing the parsed
address yields `s` back exactly. -/
theorem C1_roundtrip_canonical (a : UUri) (s : List Char)
    (hwf : wfUri a = true) (hs : serializeUUri a = .ok s) :
    ∃ u, parseUUri s = .ok u ∧ serializeUUri u = .ok s :=
  ⟨a, parse_serialize_wf hwf hs, hs⟩

/-- C1 witness: `C1_roundtrip_canonical` applied to the concrete
address serializing to `/body.access/1/door.front_left#Door`. -/
theorem C1_roundtrip_canonical_witness :
    wfUri { authority := none,
            entity := some { name := "body.access".data, version_major := some 1,
                             id := none },
            resource := some { name := "door".data,
                               instance_ := some "front_left".data,
                               message := some "Door".data, id := none } } = true ∧
    (∃ u, parseUUri "/body.access/1/door.front_left#Door".data = .ok u ∧
      serializeUUri u = .ok "/body.access/1/door.front_left#Door".data) :=
  ⟨by decide,
   C1_roundtrip_canonical
     { authority := none,
       entity := some { name := "body.access".data, version_major := some 1,
                        id := none },
       resource := some { name := "door".data,
                          instance_ := some "front_left".data,
                          message := some "Door".data, id := none } }
     "/body.access/1/door.front_left#Door".data (by decide) (by decide)⟩

/-- C8 counterexample: when the remainder after the first `:` itself
contains a `:` or a `\`, parsing the whole input is not the same as
parsing the remainder: `x:y://a` fails while its remainder `y://a`
parses to an authority-only address, and `a:b\c` fails while its
remainder `b\c` parses to an entity address. -/
theorem C8_scheme_counterexample :
    afterFirst ':' "x:y://a".data = some "y://a".data ∧
    (∃ e, parseUUri "x:y://a".data = .error e) ∧
    parseUUri "y://a".data =
      .ok { authority := some { name := some ['a'], number := none },
            entity := none, resource := none } ∧
    afterFirst ':' "a:b\\c".data = some "b\\c".data ∧
    (∃ e, parseUUri "a:b\\c".data = .error e) ∧
    parseUUri "b\\c".data =
      .ok { authority := none,
            entity := some { name := ['c'], version_major := none, id := none },
            resource := none } :=
  ⟨by decide, ⟨_, rfl⟩, by decide, by decide, ⟨_, rfl⟩, by decide⟩

/-- C8 (amended): for every input containing a `:`, if the remainder
after the first `:` is nonempty and contains neither `:` nor `\`,
parsing the input equals parsing the remainder; concretely,
`custom://vcu.vin/body.access//door` parses identically to
`//vcu.vin/body.access//door`, and serializing the result reproduces
the scheme-stripped text, never the original. -/
theorem C8_scheme_stripping :
    (∀ t r : List Char, afterFirst ':' t = some r → r ≠ [] → ':' ∉ r → '\\' ∉ r →
      parseUUri t = parseUUri r) ∧
    parseUUri "custom://vcu.vin/body.access//door".data =
      parseUUri "//vcu.vin/body.access//door".data ∧
    (∃ u, parseUUri "custom://vcu.vin/body.access//door".data = .ok u ∧
      serializeUUri u = .ok "//vcu.vin/body.access//door".data ∧
      "//vcu.vin/body.access//door".data ≠
        "custom://vcu.vin/body.access//door".data) := by
  refine ⟨?_, by decide, ?_⟩
  · intro t r h hrne hco hbs
    have htne : t ≠ [] := by
      intro h0
      rw [h0] at h
      simp [afterFirst] at h
    have htie : t.isEmpty = false := by
      cases t with
      | nil => exact absurd rfl htne
      | cons c cs => rfl
    have hrie : r.isEmpty = false := by
      cases r with
      | nil => exact absurd rfl hrne
      | cons c cs => rfl
    have hst : stripScheme t = r := by
      rw [stripScheme, h]
    have hsr : stripScheme r = r := stripScheme_eq_self hco hbs
    have hfr : fromStrParts t = fromStrParts r := by
      rw [fromStrParts, fromStrParts, hst, hsr, htie, hrie]
    rw [parseUUri, parseUUri, hfr]
  · refine ⟨_, rfl, by decide, by decide⟩

/-- C8 witness: the general conjunct of `C8_scheme_stripping` applied
at the concrete custom-scheme input. -/
theorem C8_scheme_stripping_witness :
    parseUUri "custom://vcu.vin/body.access//door".data =
      parseUUri "//vcu.vin/body.access//door".data :=
  C8_scheme_stripping.1 "custom://vcu.vin/body.access//door".data
    "//vcu.vin/body.access//door".data (by decide) (by decide) (by decide) (by decide)

/-- C3: `build_resolved` returns an error when the long text is empty,
when the micro bytes are empty, when the decoded micro address has no
Authority, when it has no Entity, and when the parsed long address has
no Resource. -/
theorem C3_resolver_error_cases :
    (∀ m : List Nat, ∃ e, buildResolved [] m = .error e) ∧
    (∀ l : List Char, ∃ e, buildResolved l [] = .error e) ∧
    (∀ (l : List Char) (m : List Nat) (mu : UUri), microDeserialize m = .ok mu →
      mu.authority = none → ∃ e, buildResolved l m = .error e) ∧
    (∀ (l : List Char) (m : List Nat) (mu : UUri), microDeserialize m = .ok mu →
      mu.entity = none → ∃ e, buildResolved l m = .error e) ∧
    (∀ (l : List Char) (m : List Nat) (lu : UUri), parseUUri l = .ok lu →
      lu.resource = none → ∃ e, buildResolved l m = .error e) := by
  have hmne : ∀ (m : List Nat) (mu : UUri), microDeserialize m = .ok mu →
      m.isEmpty = false := by
    intro m mu hm
    cases m with
    | nil => exact absurd hm (by simp [microDeserialize])
    | cons b bs => rfl
  refine ⟨?_, ?_, ?_, ?_, ?_⟩
  · intro m
    exact ⟨"Long URI is empty".data, rfl⟩
  · intro l
    by_cases hl : l.isEmpty = true
    · exact ⟨"Long URI is empty".data, by simp [buildResolved, hl]⟩
    · exact ⟨"Micro URI is empty".data, by simp [buildResolved, hl]⟩
  · intro l m mu hm hau
    have hmie := hmne m mu hm
    by_cases hl : l.isEmpty = true
    · exact ⟨"Long URI is empty".data, by simp [buildResolved, hl]⟩
    · cases hp : parseUUri l with
      | error e =>
        exact ⟨e, by simp [buildResolved, hl, hmie, hp]⟩
      | ok lu =>
        exact ⟨"Micro URI is missing UAuthority".data,
          by simp [buildResolved, hl, hmie, hp, hm, hau]⟩
  · intro l m mu hm hen
    have hmie := hmne m mu hm
    by_cases hl : l.isEmpty = true
    · exact ⟨"Long URI is empty".data, by simp [buildResolved, hl]⟩
    · cases hp : parseUUri l with
      | error e =>
        exact ⟨e, by simp [buildResolved, hl, hmie, hp]⟩
      | ok lu =>
        cases hau : mu.authority with
        | none =>
          exact ⟨"Micro URI is missing UAuthority".data,
            by simp [buildResolved, hl, hmie, hp, hm, hau]⟩
        | some a0 =>
          exact ⟨"Micro URI is missing UEntity".data,
            by simp [buildResolved, hl, hmie, hp, hm, hau, hen]⟩
  · intro l m lu hp hres
    by_cases hl : l.isEmpty = true
    · exact ⟨"Long URI is empty".data, by simp [buildResolved, hl]⟩
    · by_cases hm2 : m.isEmpty = true
      · exact ⟨"Micro URI is empty".data, by simp [buildResolved, hl, hm2]⟩
      · cases hmd : microDeserialize m with
        | error e =>
          exact ⟨e, by simp [buildResolved, hl, hm2, hp, hmd]⟩
        | ok mu =>
          cases hau : mu.authority with
          | none =>
            exact ⟨"Micro URI is missing UAuthority".data,
              by simp [buildResolved, hl, hm2, hp, hmd, hau]⟩
          | some a0 =>
            cases hen : mu.entity with
            | none =>
              exact ⟨"Micro URI is missing UEntity".data,
                by simp [buildResolved, hl, hm2, hp, hmd, hau, hen]⟩
            | some e0 =>
              exact ⟨"Long URI is missing UResource".data,
                by simp [buildResolved, hl, hm2, hp, hmd, hau, hen, hres]⟩

/-- C3 witness: each error case of `C3_resolver_error_cases` at a
concrete input. -/
theorem C3_resolver_error_cases_witness :
    (∃ e, buildResolved [] [0] = .error e) ∧
    (∃ e, buildResolved "/e".data [] = .error e) ∧
    (∃ e, buildResolved "/e//r".data [6, 1, 2, 3] = .error e) ∧
    (∃ e, buildResolved "/e//r".data [5, 1, 2, 3] = .error e) ∧
    (∃ e, buildResolved "/e".data [7, 1, 2, 3] = .error e) :=
  ⟨C3_resolver_error_cases.1 [0],
   C3_resolver_error_cases.2.1 "/e".data,
   C3_resolver_error_cases.2.2.1 "/e//r".data [6, 1, 2, 3]
     { authority := none,
       entity := some { name := [], version_major := none, id := some 2 },
       resource := some { name := [], instance_ := none, message := none,
                          id := some 3 } }
     (by decide) rfl,
   C3_resolver_error_cases.2.2.2.1 "/e//r".data [5, 1, 2, 3]
     { authority := some { name := none, number := some [1] },
       entity := none,
       resource := some { name := [], instance_ := none, message := none,
                          id := some 3 } }
     (by decide) rfl,
   C3_resolver_error_cases.2.2.2.2 "/e".data [7, 1, 2, 3]
     { authority := none,
       entity := some { name := ['e'], version_major := none, id := none },
       resource := none }
     (by decide) rfl⟩

/-- C2: whenever `build_resolved` succeeds, the result carries the long
form's human-readable names (authority name, entity name, resource
name/instance/message) and the micro form's numeric ids/addresses for
every component present in both; and whenever the parsed long form has
no Resource, `build_resolved` fails. -/
theorem C2_merge_precedence :
    (∀ (l : List Char) (m : List Nat) (u lu mu : UUri),
      buildResolved l m = .ok u → parseUUri l = .ok lu →
      microDeserialize m = .ok mu →
      (∀ la n, lu.authority = some la → la.name = some n →
        ∃ au, u.authority = some au ∧ au.name = some n) ∧
      (∀ le, lu.entity = some le →
        ∃ eu, u.entity = some eu ∧ eu.name = le.name) ∧
      (∀ lr, lu.resource = some lr →
        ∃ ru, u.resource = some ru ∧ ru.name = lr.name ∧
          ru.instance_ = lr.instance_ ∧ ru.message = lr.message) ∧
      (∀ ma, mu.authority = some ma →
        ∃ au, u.authority = some au ∧ au.number = ma.number) ∧
      (∀ me, mu.entity = some me →
        ∃ eu, u.entity = some eu ∧ eu.id = me.id) ∧
      (∀ mr, mu.resource = some mr →
        ∃ ru, u.resource = some ru ∧ ru.id = mr.id)) ∧
    (∀ (l : List Char) (m : List Nat) (lu : UUri), parseUUri l = .ok lu →
      lu.resource = none → ∃ e, buildResolved l m = .error e) := by
  constructor
  · intro l m u lu mu hb hp hm
    by_cases hl : l.isEmpty = true
    · rw [buildResolved, if_pos hl] at hb
      exact absurd hb (by simp)
    · have hmie : m.isEmpty = false := by
        cases m with
        | nil => exact absurd hm (by simp [microDeserialize])
        | cons b bs => rfl
      rw [buildResolved, if_neg hl, if_neg (by simp [hmie]), hp, hm] at hb
      dsimp only at hb
      cases hau : mu.authority with
      | none =>
        rw [hau] at hb
        exact absurd hb (by simp)
      | some a0 =>
        rw [hau] at hb
        dsimp only at hb
        cases hen : mu.entity with
        | none =>
          rw [hen] at hb
          exact absurd hb (by simp)
        | some e0 =>
          rw [hen] at hb
          dsimp only at hb
          cases hres : lu.resource with
          | none =>
            rw [hres] at hb
            exact absurd hb (by simp)
          | some r0 =>
            rw [hres] at hb
            dsimp only at hb
            split at hb
            rotate_left
            · exact absurd hb (by simp)
            have hu := (Except.ok.inj hb).symm
            subst hu
            refine ⟨?_, ?_, ?_, ?_, ?_, ?_⟩
            · intro la n hla hn
              simp only [hla, hn]
              exact ⟨_, rfl, rfl⟩
            · intro le hle
              simp only [hle]
              exact ⟨_, rfl, rfl⟩
            · intro lr hlr
              have hlr2 : lr = r0 := (Option.some.inj hlr).symm
              subst hlr2
              cases hmr : mu.resource with
              | none => exact ⟨_, rfl, rfl, rfl, rfl⟩
              | some mr => exact ⟨_, rfl, rfl, rfl, rfl⟩
            · intro ma hma
              have hma2 : ma = a0 := (Option.some.inj hma).symm
              subst hma2
              cases hla2 : lu.authority with
              | none => exact ⟨_, rfl, rfl⟩
              | some la2 =>
                dsimp only
                cases hn2 : la2.name with
                | none => exact ⟨_, rfl, rfl⟩
                | some nn => exact ⟨_, rfl, rfl⟩
            · intro me hme
              have hme2 : me = e0 := (Option.some.inj hme).symm
              subst hme2
              cases hle2 : lu.entity with
              | none => exact ⟨_, rfl, rfl⟩
              | some le2 => exact ⟨_, rfl, rfl⟩
            · intro mr hmr
              simp only [hmr]
              exact ⟨_, rfl, rfl⟩
  · intro l m lu hp hres
    by_cases hl : l.isEmpty = true
    · exact ⟨"Long URI is empty".data, by simp [buildResolved, hl]⟩
    · by_cases hm2 : m.isEmpty = true
      · exact ⟨"Micro URI is empty".data, by simp [buildResolved, hl, hm2]⟩
      · cases hmd : microDeserialize m with
        | error e =>
          exact ⟨e, by simp [buildResolved, hl, hm2, hp, hmd]⟩
        | ok mu =>
          cases hau : mu.authority with
          | none =>
            exact ⟨"Micro URI is missing UAuthority".data,
              by simp [buildResolved, hl, hm2, hp, hmd, hau]⟩
          | some a0 =>
            cases hen : mu.entity with
            | none =>
              exact ⟨"Micro URI is missing UEntity".data,
                by simp [buildResolved, hl, hm2, hp, hmd, hau, hen]⟩
            | some e0 =>
              exact ⟨"Long URI is missing UResource".data,
                by simp [buildResolved, hl, hm2, hp, hmd, hau, hen, hres]⟩

/-- C2 witness: `C2_merge_precedence` applied at the concrete pair
`//A/e//r` and micro bytes `[7, 1, 2, 3]`, extracting the long form's
authority name and the micro form's entity and resource ids, plus the
failure case at a long form without a resource. -/
theorem C2_merge_precedence_witness :
    (∃ au, (UUri.authority
      { authority := some { name := some ['A'], number := some [1] },
        entity := some { name := ['e'], version_major := none, id := some 2 },
        resource := some { name := ['r'], instance_ := none, message := none,
                           id := some 3 } }) = some au ∧ au.name = some ['A']) ∧
    (∃ eu, (UUri.entity
      { authority := some { name := some ['A'], number := some [1] },
        entity := some { name := ['e'], version_major := none, id := some 2 },
        resource := some { name := ['r'], instance_ := none, message := none,
                           id := some 3 } }) = some eu ∧ eu.id = some 2) ∧
    (∃ ru, (UUri.resource
      { authority := some { name := some ['A'], number := some [1] },
        entity := some { name := ['e'], version_major := none, id := some 2 },
        resource := some { name := ['r'], instance_ := none, message := none,
                           id := some 3 } }) = some ru ∧ ru.id = some 3) ∧
    (∃ e, buildResolved "/e".data [1] = .error e) := by
  have h := C2_merge_precedence.1 "//A/e//r".data [7, 1, 2, 3]
    { authority := some { name := some ['A'], number := some [1] },
      entity := some { name := ['e'], version_major := none, id := some 2 },
      resource := some { name := ['r'], instance_ := none, message := none,
                         id := some 3 } }
    { authority := some { name := some ['A'], number := none },
      entity := some { name := ['e'], version_major := none, id := none },
      resource := some { name := ['r'], instance_ := none, message := none,
                         id := none } }
    { authority := some { name := none, number := some [1] },
      entity := some { name := [], version_major := none, id := some 2 },
      resource := some { name := [], instance_ := none, message := none,
                         id := some 3 } }
    (by decide) (by decide) (by decide)
  refine ⟨h.1 { name := some ['A'], number := none } ['A'] rfl rfl,
    h.2.2.2.2.1 { name := [], version_major := none, id := some 2 } rfl,
    h.2.2.2.2.2 { name := [], instance_ := none, message := none, id := some 3 } rfl,
    C2_merge_precedence.2 "/e".data [1]
      { authority := none,
        entity := some { name := ['e'], version_major := none, id := none },
        resource := none }
      (by decide) rfl⟩
